import Mathlib

/-!
Verification development for the AI-Course-Recommender recommendation core
(backend/app/services/recommendation_engine.py and the negative-filtering
logic of backend/app/services/weaviate_service.py).

Python strings are modelled as Lean String or List Char; Python floats are
modelled as exact rationals (ℚ); Python dicts used as insertion-ordered
maps are modelled as association lists with Python dict semantics
(assignment to an existing key updates in place, assignment to a fresh key
appends).  Fallible stages are modelled with Except / Option and explicit
failure flags; the try/except structure of the source is mirrored by
explicit catches in the definitions.
-/

namespace AIRec

/-- Whitespace predicate matching Python str.split() / str.strip()
(space, tab, newline, carriage return, vertical tab, form feed). -/
def pyIsSpace (c : Char) : Bool :=
  c == ' ' || c == '\t' || c == '\n' || c == '\r' || c == '\x0b' || c == '\x0c'

/-- Word character in the sense of the regex class backslash-w restricted to
ASCII: letters, digits and underscore. -/
def wordChar (c : Char) : Bool :=
  c.isAlphanum || c == '_'

/-- Character class of the capture groups used by every negative phrase
pattern in the source: any character except comma, period, bang, question
mark (the regex class excluding those four). -/
def notBanned (c : Char) : Bool :=
  !(c == ',' || c == '.' || c == '!' || c == '?')

/-- Longest prefix of the input whose characters all satisfy p, together
with the remaining suffix (the greedy semantics of a regex character-class
repetition). -/
def takeRun (p : Char → Bool) : List Char → List Char × List Char
  | [] => ([], [])
  | c :: cs =>
    if p c then
      let r := takeRun p cs
      (c :: r.1, r.2)
    else ([], c :: cs)

/-- Helper for splitWs: accumulates the current (reversed) token. -/
def splitWsAux : List Char → List Char → List (List Char)
  | [], acc => if acc.isEmpty then [] else [acc.reverse]
  | c :: cs, acc =>
    if pyIsSpace c then
      if acc.isEmpty then splitWsAux cs [] else acc.reverse :: splitWsAux cs []
    else splitWsAux cs (c :: acc)

/-- Python str.split() with no argument: the maximal whitespace-free runs
of the string, with no empty tokens. -/
def splitWs (s : List Char) : List (List Char) :=
  splitWsAux s []

/-- Python str.strip(): remove leading and trailing whitespace. -/
def pyStrip (s : List Char) : List Char :=
  ((s.dropWhile pyIsSpace).reverse.dropWhile pyIsSpace).reverse

/-- Python str.lower(), restricted to ASCII case mapping. -/
def lowerChars (s : List Char) : List Char :=
  s.map Char.toLower

/-- Python str.lower() on Lean strings, applied per character. -/
def strLower (s : String) : String :=
  String.mk (lowerChars s.toList)

/-- Fuel-driven worker for findAll.  At each position: if the literal
prefix of the pattern matches here and at least one allowed character
follows it, record the greedy capture and resume after it; otherwise
advance one character.  This is re.findall for patterns of the shape
literal-then-one-capture-group-of-a-repeated-character-class. -/
def findAllAux (lit : List Char) (p : Char → Bool) : Nat → List Char → List (List Char)
  | 0, _ => []
  | _ + 1, [] => []
  | fuel + 1, c :: cs =>
    if lit.isPrefixOf (c :: cs) then
      let cap := takeRun p ((c :: cs).drop lit.length)
      if cap.1.isEmpty then findAllAux lit p fuel cs
      else cap.1 :: findAllAux lit p fuel cap.2
    else findAllAux lit p fuel cs

/-- All capture groups found by scanning the text left to right with a
pattern made of the literal lit followed by a nonempty greedy run of
characters satisfying p (non-overlapping, leftmost-first, as re.findall). -/
def findAll (lit : List Char) (p : Char → Bool) (s : List Char) : List (List Char) :=
  findAllAux lit p s.length s

/-- The apostrophe character, used inside two of the negative phrase
patterns of the source. -/
def apos : Char := Char.ofNat 39

/-- Python substring test (the in-operator on strings): the needle occurs
contiguously somewhere in the haystack. -/
def containsSub (needle haystack : List Char) : Bool :=
  haystack.tails.any (fun t => needle.isPrefixOf t)

/-- The literal parts of the eight negative phrase patterns of
WeaviateService._extract_negative_keywords, in source order.  Each is
followed in the source by the capture group of characters other than
comma, period, bang and question mark.  Note that the final pattern
carries an upper-case letter in the source and is therefore matched
against the lowercased query exactly as written (so it can never match,
faithfully to the source). -/
def negLiterals : List (List Char) :=
  [ ("don".toList ++ [apos] ++ "t want to learn ".toList),
    "not interested in ".toList,
    "avoid ".toList,
    "but not ".toList,
    "except ".toList,
    "without ".toList,
    "no ".toList,
    ("I don".toList ++ [apos] ++ "t like ".toList) ]

/-- Per-match keyword tokenisation of the source: split the captured span
on whitespace, strip each word, keep the nonempty ones. -/
def keywordsOfMatch (m : List Char) : List (List Char) :=
  ((splitWs m).map pyStrip).filter (fun w => !w.isEmpty)

/-- WeaviateService._extract_negative_keywords: run all eight phrase
patterns over the lowercased query, tokenise every captured span, then run
the catch-all pattern (literal "not " followed by a word-character run)
and append its captures, and deduplicate.  The source materialises the
final set with list(set(...)), whose order is arbitrary; we keep first
occurrences, which realises the same set. -/
def extractNegativeKeywords (queryText : List Char) : List (List Char) :=
  let queryLower := lowerChars queryText
  let fromPhrasePatterns :=
    (negLiterals.map (fun lit =>
      ((findAll lit notBanned queryLower).map keywordsOfMatch).flatten)).flatten
  let notMatches := findAll ("not ".toList) wordChar queryLower
  (fromPhrasePatterns ++ notMatches).dedup

/-- Fuel-driven worker for wordTokens. -/
def wordTokensAux : Nat → List Char → List (List Char)
  | 0, _ => []
  | _ + 1, [] => []
  | fuel + 1, c :: cs =>
    if wordChar c then
      let cap := takeRun wordChar (c :: cs)
      cap.1 :: wordTokensAux fuel cap.2
    else wordTokensAux fuel cs

/-- The word tokens of a string: the maximal runs of word characters.
This is re.findall of a word-boundary-delimited word-character run, as
used on course titles by WeaviateService._should_exclude_course. -/
def wordTokens (s : List Char) : List (List Char) :=
  wordTokensAux s.length s

/-- WeaviateService._should_exclude_course: a course is excluded when some
negative keyword, lowercased and stripped, has length at least 3 and is an
exact member of the lowercased topic tags of the course or of the word tokens
of its lowercased title. -/
def shouldExcludeCourse (title : String) (topics : List String)
    (negativeKeywords : List String) : Bool :=
  if negativeKeywords.isEmpty then false
  else
    let titleTokens := wordTokens (lowerChars title.toList)
    let topicTokens := topics.map (fun t => lowerChars t.toList)
    negativeKeywords.any (fun keyword =>
      let kw := pyStrip (lowerChars keyword.toList)
      decide (3 ≤ kw.length) &&
        (decide (kw ∈ topicTokens) || decide (kw ∈ titleTokens)))

/-- Provenance tag attached by candidate fusion. -/
inductive Source where
  | vector
  | content
deriving DecidableEq, Repr

/-- A candidate record as built by the two retrieval stages of
RecommendationEngine (the per-course dict with keys id, title,
description, topics, difficulty, duration, format, rating,
vector_similarity, and the source tag added later by fusion).  Ratings and
similarities are Python floats, modelled as exact rationals.  The
vector_similarity and source keys may be absent from the dict, hence
Option. -/
structure Course where
  id : String
  title : String
  description : String
  topics : List String
  difficulty : String
  duration : String
  format : String
  rating : ℚ
  vector_similarity : Option ℚ
  source : Option Source
deriving DecidableEq, Repr

/-- The response record materialised from a scored candidate
(models.CourseResponse; pydantic drops the extra vector_similarity and
source keys when the candidate dict is splatted into the constructor). -/
structure CourseResponse where
  id : String
  title : String
  description : String
  topics : List String
  difficulty : String
  duration : String
  format : String
  rating : ℚ
  similarity_score : Option ℚ
deriving DecidableEq, Repr

/-- The preferences sub-dict of a user context: preferred topics (absent
key read as the empty list), and optional difficulty and learning style. -/
structure Preferences where
  topics : List String
  difficulty : Option String
  learning_style : Option String
deriving DecidableEq, Repr

/-- One recent feedback record of a user context: its rating and the rated
course id, both read with dict.get in the source, hence optional id and
default-0 rating. -/
structure Feedback where
  rating : Int
  course_id : Option String
deriving DecidableEq, Repr

/-- The user context dict passed to the engine: an optional preferences
sub-dict and the recent feedback list. -/
structure UserContext where
  preferences : Option Preferences
  recent_feedback : List Feedback
deriving DecidableEq, Repr

/-- The empty preferences dict used when the preferences key is absent. -/
def Preferences.empty : Preferences :=
  { topics := [], difficulty := none, learning_style := none }

/-- Lookup of the topics column of the courses table by course id,
modelling the execute_query call of _extract_positive_topic_patterns. -/
def lookupCourseTopics (db : List (String × List String)) (cid : String) :
    Option (List String) :=
  (db.find? (fun p => p.1 == cid)).map Prod.snd

/-- RecommendationEngine._extract_positive_topic_patterns: collect the
topics of every course that received recent feedback with rating at least
4. -/
def extractPositiveTopicPatterns (db : List (String × List String))
    (ctx : UserContext) : List String :=
  ctx.recent_feedback.foldl (fun acc f =>
    if 4 ≤ f.rating then
      match f.course_id with
      | some cid =>
        match lookupCourseTopics db cid with
        | some topics => acc ++ topics
        | none => acc
      | none => acc
    else acc) []

/-- RecommendationEngine._calculate_topic_score.  First fold: one point
per course topic that case-insensitively matches a preferred topic.
Second fold: for each course topic present among the lowercased positive
history topics, add the capped frequency weight min(count / 3, 0.8).
Finally divide by the number of course topics and cap at 1. -/
def calculateTopicScore (courseTopics preferredTopics positiveTopics : List String) : ℚ :=
  if courseTopics.isEmpty then 0
  else
    let matchScore := courseTopics.foldl (fun s t =>
      if decide (strLower t ∈ preferredTopics.map strLower) then s + 1 else s) (0 : ℚ)
    let lowerPositive := positiveTopics.map strLower
    let fullScore := courseTopics.foldl (fun s t =>
      let c := lowerPositive.count (strLower t)
      if 0 < c then s + min ((c : ℚ) / 3) 0.8 else s) matchScore
    min (fullScore / (max courseTopics.length 1 : ℚ)) 1

/-- Characterisation helper: the preferred-topic contribution of a single
course topic inside _calculate_topic_score. -/
def topicMatchContrib (preferredTopics : List String) (t : String) : ℚ :=
  if strLower t ∈ preferredTopics.map strLower then 1 else 0

/-- Characterisation helper: the positive-history contribution of a
single course topic inside _calculate_topic_score, the capped frequency
weight. -/
def topicHistContrib (positiveTopics : List String) (t : String) : ℚ :=
  if 0 < (positiveTopics.map strLower).count (strLower t) then
    min (((positiveTopics.map strLower).count (strLower t) : ℚ) / 3) 0.8
  else 0

/-- The ordered difficulty tiers of the source. -/
def difficultyLevels : List String :=
  ["beginner", "intermediate", "advanced"]

/-- RecommendationEngine._calculate_difficulty_score.  Python truthiness
of the two strings is modelled by the none and empty-string cases. -/
def calculateDifficultyScore (courseDifficulty : String)
    (preferredDifficulty : Option String) : ℚ :=
  match preferredDifficulty with
  | none => 0.5
  | some pd =>
    if pd = "" ∨ courseDifficulty = "" then 0.5
    else if strLower courseDifficulty = strLower pd then 1
    else
      match difficultyLevels.indexOf? (strLower courseDifficulty),
            difficultyLevels.indexOf? (strLower pd) with
      | some ci, some pi_ =>
        if Nat.dist ci pi_ = 0 then 1
        else if Nat.dist ci pi_ = 1 then 0.7
        else 0.3
      | _, _ => 0.5

/-- The fixed format-to-compatible-styles table of the source. -/
def formatStyleMap : List (String × List String) :=
  [ ("hands-on", ["hands-on", "practical", "project-based", "interactive"]),
    ("video", ["visual", "auditory", "multimedia"]),
    ("interactive", ["hands-on", "visual", "engaging"]),
    ("text", ["reading", "theoretical", "self-paced"]),
    ("live", ["interactive", "collaborative", "social"]),
    ("project-based", ["hands-on", "practical", "applied"]) ]

/-- RecommendationEngine._calculate_learning_style_score.  Substring tests
model the Python in-operator on strings. -/
def calculateLearningStyleScore (courseFormat : String)
    (preferredStyle : Option String) : ℚ :=
  match preferredStyle with
  | none => 0.5
  | some ps =>
    if ps = "" ∨ courseFormat = "" then 0.5
    else
      let preferredLower := (strLower ps).toList
      let formatLower := (strLower courseFormat).toList
      if containsSub preferredLower formatLower then 1
      else if formatStyleMap.any (fun entry =>
          containsSub entry.1.toList formatLower &&
            entry.2.any (fun style => containsSub style.toList preferredLower)) then 0.8
      else 0.4

/-- RecommendationEngine._calculate_diversity_score: half the fraction of
course topics that are not among the preferred topics, or 0.2 when either
list is empty. -/
def calculateDiversityScore (courseTopics preferredTopics : List String) : ℚ :=
  if courseTopics.isEmpty || preferredTopics.isEmpty then 0.2
  else
    let newTopics := courseTopics.filter (fun t =>
      !(decide (strLower t ∈ preferredTopics.map strLower)))
    (newTopics.length : ℚ) / (courseTopics.length : ℚ) * 0.5

/-- RecommendationEngine._score_courses without its outer try (the except
branch is a separate flag of the engine model): with no user context, the
coarse fallback weighting; with a context, the running sum of the six
weighted sub-scores plus the source-priority bonus, accumulated in source
order. -/
def scoreCourses (db : List (String × List String)) (courses : List Course)
    (userContext : Option UserContext) : List (Course × ℚ) :=
  match userContext with
  | none =>
    courses.map (fun c => (c, c.rating / 5 + (c.vector_similarity.getD 0) * 0.5))
  | some ctx =>
    let preferences := ctx.preferences.getD Preferences.empty
    let preferredTopics := preferences.topics
    let preferredDifficulty := preferences.difficulty
    let preferredLearningStyle := preferences.learning_style
    let positiveTopics := extractPositiveTopicPatterns db ctx
    courses.map (fun course =>
      let score : ℚ := 0
      let score := score + course.rating / 5 * 0.2
      let score := score + (course.vector_similarity.getD 0) * 0.4
      let score := score + calculateTopicScore course.topics preferredTopics positiveTopics * 0.3
      let score := score + calculateDifficultyScore course.difficulty preferredDifficulty * 0.1
      let score := score + calculateLearningStyleScore course.format preferredLearningStyle * 0.05
      let score := score + calculateDiversityScore course.topics preferredTopics * 0.05
      let score := if course.source = some Source.vector then score + 0.02 else score
      (course, score))

/-- Stable descending insertion: place x before the first element whose
score is not greater than that of x, so that earlier input elements precede
later ones on equal scores. -/
def insDesc {α : Type} (x : α × ℚ) : List (α × ℚ) → List (α × ℚ)
  | [] => [x]
  | y :: ys => if y.2 ≤ x.2 then x :: y :: ys else y :: insDesc x ys

/-- The stable descending-by-score sort.  The Python list.sort method with
reverse set and a score key is documented to be stable; the output of a
stable descending sort is unique, and this insertion sort realises it. -/
def sortDesc {α : Type} : List (α × ℚ) → List (α × ℚ)
  | [] => []
  | x :: xs => insDesc x (sortDesc xs)

/-- Tag a candidate with vector provenance (the dict assignment performed
by the first fusion loop). -/
def tagVector (c : Course) : Course :=
  { c with source := some Source.vector }

/-- Tag a candidate with content provenance (the dict assignment performed
by the second fusion loop). -/
def tagContent (c : Course) : Course :=
  { c with source := some Source.content }

/-- The keys of an insertion-ordered dict modelled as an association
list. -/
def dkeys (d : List (String × Course)) : List String :=
  d.map Prod.fst

/-- Python dict assignment on an insertion-ordered dict: an existing key
keeps its position and gets the new value, a fresh key is appended. -/
def dinsert (d : List (String × Course)) (k : String) (v : Course) :
    List (String × Course) :=
  if d.any (fun p => p.1 == k) then
    d.map (fun p => if p.1 == k then (k, v) else p)
  else d ++ [(k, v)]

/-- The first loop of RecommendationEngine._combine_recommendations:
assign every vector candidate into the dict under its id, with the vector
source tag. -/
def fuseVectorFold (vectorCourses : List Course) (d0 : List (String × Course)) :
    List (String × Course) :=
  vectorCourses.foldl (fun d c => dinsert d c.id (tagVector c)) d0

/-- The second loop of RecommendationEngine._combine_recommendations:
assign a content candidate only when its id is not yet a key (so the
assignment is always an append). -/
def fuseContentFold (contentCourses : List Course) (d0 : List (String × Course)) :
    List (String × Course) :=
  contentCourses.foldl (fun d c =>
    if d.any (fun p => p.1 == c.id) then d else d ++ [(c.id, tagContent c)]) d0

/-- RecommendationEngine._combine_recommendations: run both loops over an
empty dict and return the dict values in insertion order. -/
def combineRecommendations (vectorCourses contentCourses : List Course) : List Course :=
  (fuseContentFold contentCourses (fuseVectorFold vectorCourses [])).map Prod.snd

/-- Round half to even, the semantics of the Python builtin round. -/
def roundHalfEven (q : ℚ) : ℤ :=
  let f := ⌊q⌋
  let r := q - (f : ℚ)
  if r < 1 / 2 then f
  else if 1 / 2 < r then f + 1
  else if f % 2 = 0 then f else f + 1

/-- Python round(score, 3) on the modelled rationals. -/
def roundTo3 (q : ℚ) : ℚ :=
  (roundHalfEven (q * 1000) : ℚ) / 1000

/-- Materialise a scored candidate into the response model, as the loop of
get_personalized_recommendations does: splat the candidate dict into
CourseResponse (dropping the extra keys) and set the rounded similarity
score. -/
def courseToResponse (c : Course) (score : ℚ) : CourseResponse :=
  { id := c.id, title := c.title, description := c.description,
    topics := c.topics, difficulty := c.difficulty, duration := c.duration,
    format := c.format, rating := c.rating,
    similarity_score := some (roundTo3 score) }

/-- The response built for one catalog row by the fallback supplier, with
similarity score rating divided by 5 (not rounded in the source). -/
def fallbackResponse (c : Course) : CourseResponse :=
  { id := c.id, title := c.title, description := c.description,
    topics := c.topics, difficulty := c.difficulty, duration := c.duration,
    format := c.format, rating := c.rating,
    similarity_score := some (c.rating / 5) }

/-- RecommendationEngine._get_fallback_recommendations: the catalog rows
ordered by descending rating, limited, each with similarity score rating
over 5; an unreachable catalog store (the except branch) yields the empty
list. -/
def fallbackRecommendations (db : Option (List Course)) (maxResults : Nat) :
    List CourseResponse :=
  match db with
  | none => []
  | some courses =>
    ((sortDesc (courses.map (fun c => (c, c.rating)))).take maxResults).map
      (fun p => fallbackResponse p.1)

/-- The failure profile of one engine invocation: the outcome of each
retrieval stage (an error models an exception inside that stage, which the
stage itself catches and turns into an empty list), whether the body of
_score_courses raises (its own except branch degrades to rating-only
scores), whether an exception propagates to the top-level handler of
get_personalized_recommendations from the code after retrieval (fusion,
response construction, cache bookkeeping), and the catalog store contents
seen by the fallback supplier (none when unreachable). -/
structure EngineRun where
  vectorResult : Except Unit (List Course)
  contentResult : Except Unit (List Course)
  scoreRaises : Bool
  postRaises : Bool
  db : Option (List Course)

/-- RecommendationEngine.get_personalized_recommendations on a cache
miss: retrieve from both sources (each degrading to an empty list on its
own internal exception), fuse, score (degrading to rating-only scores on
a scoring exception), sort stably by descending score, truncate and
materialise; any exception propagating to the top-level handler returns
the list of the fallback supplier instead. -/
def runEngine (r : EngineRun) (topicsDb : List (String × List String))
    (userContext : Option UserContext) (maxResults : Nat) : List CourseResponse :=
  let vectorCourses := match r.vectorResult with
    | .ok l => l
    | .error _ => []
  let contentCourses := match r.contentResult with
    | .ok l => l
    | .error _ => []
  if r.postRaises then fallbackRecommendations r.db maxResults
  else
    let combined := combineRecommendations vectorCourses contentCourses
    let scored := if r.scoreRaises then combined.map (fun c => (c, c.rating / 5))
      else scoreCourses topicsDb combined userContext
    ((sortDesc scored).take maxResults).map (fun p => courseToResponse p.1 p.2)

/-- A cache entry: the stored value and its creation timestamp. -/
structure CacheEntry (α : Type) where
  data : α
  timestamp : Nat
deriving DecidableEq, Repr

/-- Read a cache entry by key. -/
def lookupCache {α : Type} (cache : List (String × CacheEntry α)) (k : String) :
    Option (CacheEntry α) :=
  (cache.find? (fun p => p.1 == k)).map Prod.snd

/-- Delete a cache entry by key (the del statement on the dict). -/
def eraseCache {α : Type} (cache : List (String × CacheEntry α)) (k : String) :
    List (String × CacheEntry α) :=
  cache.filter (fun p => !(p.1 == k))

/-- Python dict assignment on the cache dict: update in place or append. -/
def storeCache {α : Type} (cache : List (String × CacheEntry α)) (k : String)
    (e : CacheEntry α) : List (String × CacheEntry α) :=
  if cache.any (fun p => p.1 == k) then
    cache.map (fun p => if p.1 == k then (k, e) else p)
  else cache ++ [(k, e)]

/-- The outcome of one cached lookup: the returned value, the cache state
after the call, and whether the compute path ran. -/
structure CacheResult (α : Type) where
  value : α
  cache : List (String × CacheEntry α)
  computed : Bool
deriving DecidableEq, Repr

/-- The caching skeleton of get_personalized_recommendations (lines 38-68
of the source): with force refresh off and a stored entry younger than the
TTL, return it untouched; with a stored entry at least TTL old, delete it,
compute, store with the current time and return; otherwise compute, store
and return.  The computed value is passed in, and the computed flag
records whether the compute path ran. -/
def cacheGetOrCompute {α : Type} (cache : List (String × CacheEntry α))
    (now ttl : Nat) (key : String) (forceRefresh : Bool) (computeVal : α) :
    CacheResult α :=
  if forceRefresh = false then
    match lookupCache cache key with
    | some e =>
      if now - e.timestamp < ttl then
        { value := e.data, cache := cache, computed := false }
      else
        { value := computeVal,
          cache := storeCache (eraseCache cache key) key ⟨computeVal, now⟩,
          computed := true }
    | none =>
      { value := computeVal, cache := storeCache cache key ⟨computeVal, now⟩,
        computed := true }
  else
    { value := computeVal, cache := storeCache cache key ⟨computeVal, now⟩,
      computed := true }

/-- Python str applied to the optional query argument: str of the None
object is the four-character string None, str of a string is itself. -/
def pyStrOfOpt : Option String → String
  | none => "None"
  | some s => s

/-- The cache key of get_personalized_recommendations: the f-string
rec_{user_id}_{hash(str(query))}_{max_results}, with the process-level
Python string hash left abstract. -/
def cacheKey (pyHash : String → Int) (userId : Int) (query : Option String)
    (maxResults : Int) : String :=
  "rec_" ++ toString userId ++ "_" ++ toString (pyHash (pyStrOfOpt query)) ++
    "_" ++ toString maxResults

/-- A candidate already carrying the vector provenance tag, used as a
concrete input in witnesses. -/
def sampleVectorCourse : Course :=
  { id := "c3", title := "Machine Learning", description := "ml",
    topics := ["ml"], difficulty := "intermediate", duration := "6 weeks",
    format := "interactive", rating := 4, vector_similarity := some (7 / 10),
    source := some Source.vector }

/-- A low-rated catalog course used as a concrete input in witnesses and
counterexamples. -/
def sampleCourse : Course :=
  { id := "c1", title := "Intro to Testing", description := "basics",
    topics := [], difficulty := "beginner", duration := "4 weeks",
    format := "video", rating := 2, vector_similarity := none, source := none }

/-- A top-rated catalog course used as a concrete input in witnesses and
counterexamples. -/
def sampleTopCourse : Course :=
  { id := "c2", title := "Advanced Python", description := "deep dive",
    topics := ["python"], difficulty := "advanced", duration := "8 weeks",
    format := "video", rating := 5, vector_similarity := none, source := none }

end AIRec

namespace AIRec

/-- Membership in a stable descending insertion. -/
theorem mem_insDesc {α : Type} (x y : α × ℚ) (l : List (α × ℚ)) :
    y ∈ insDesc x l ↔ y = x ∨ y ∈ l := by
  induction l with
  | nil => simp [insDesc]
  | cons z zs ih =>
    simp only [insDesc]
    split
    · simp [List.mem_cons]
    · simp only [List.mem_cons, ih]
      tauto

/-- Stable descending insertion preserves the descending pairwise
ordering.  -/
theorem pairwise_insDesc (x : α × ℚ) (l : List (α × ℚ))
    (h : List.Pairwise (fun a b : α × ℚ => b.2 ≤ a.2) l) :
    List.Pairwise (fun a b : α × ℚ => b.2 ≤ a.2) (insDesc x l) := by
  induction l with
  | nil => simp [insDesc]
  | cons y ys ih =>
    rw [List.pairwise_cons] at h
    simp only [insDesc]
    split
    · rename_i hyx
      refine List.pairwise_cons.mpr ⟨?_, List.pairwise_cons.mpr ⟨h.1, h.2⟩⟩
      intro z hz
      rcases List.mem_cons.mp hz with hz | hz
      · exact hz ▸ hyx
      · exact le_trans (h.1 z hz) hyx
    · rename_i hyx
      refine List.pairwise_cons.mpr ⟨?_, ih h.2⟩
      intro z hz
      rcases (mem_insDesc x z ys).mp hz with hz | hz
      · exact hz ▸ (le_of_lt (lt_of_not_le hyx))
      · exact h.1 z hz

/-- The stable descending sort produces a list sorted by non-increasing
score. -/
theorem sortDesc_pairwise (l : List (α × ℚ)) :
    List.Pairwise (fun a b : α × ℚ => b.2 ≤ a.2) (sortDesc l) := by
  induction l with
  | nil => exact List.Pairwise.nil
  | cons x xs ih => exact pairwise_insDesc x (sortDesc xs) ih

/-- Filtering at a fixed score commutes with stable descending insertion:
the inserted element lands in front of the equal-score block, because
every element it is placed behind has a strictly larger score. -/
theorem insDesc_filter (x : α × ℚ) (l : List (α × ℚ)) (q : ℚ) :
    (insDesc x l).filter (fun a => decide (a.2 = q)) =
      if x.2 = q then x :: l.filter (fun a => decide (a.2 = q))
      else l.filter (fun a => decide (a.2 = q)) := by
  induction l with
  | nil => by_cases hx : x.2 = q <;> simp [insDesc, hx]
  | cons y ys ih =>
    simp only [insDesc]
    split
    · rename_i hyx
      by_cases hx : x.2 = q <;> simp [List.filter_cons, hx]
    · rename_i hyx
      by_cases hx : x.2 = q
      · have hy : ¬(y.2 = q) := by
          intro hy
          exact hyx (le_of_eq (hy.trans hx.symm))
        simp [List.filter_cons, hx, hy, ih]
      · simp only [List.filter_cons, ih, if_neg hx]

/-- Stability of the descending sort: the subsequence of entries at any
fixed score is exactly the subsequence of the input at that score, so equal
scores preserve input order. -/
theorem sortDesc_filter (l : List (α × ℚ)) (q : ℚ) :
    (sortDesc l).filter (fun a => decide (a.2 = q)) =
      l.filter (fun a => decide (a.2 = q)) := by
  induction l with
  | nil => rfl
  | cons x xs ih =>
    simp only [sortDesc, insDesc_filter, List.filter_cons, ih]
    by_cases hx : x.2 = q <;> simp [hx]

/-- Stable descending insertion is a permutation of consing. -/
theorem insDesc_perm (x : α × ℚ) (l : List (α × ℚ)) :
    List.Perm (insDesc x l) (x :: l) := by
  induction l with
  | nil => exact List.Perm.refl _
  | cons y ys ih =>
    simp only [insDesc]
    split
    · exact List.Perm.refl _
    · exact List.Perm.trans (ih.cons y) (List.Perm.swap x y ys)

/-- The stable descending sort permutes its input. -/
theorem sortDesc_perm (l : List (α × ℚ)) : List.Perm (sortDesc l) l := by
  induction l with
  | nil => exact List.Perm.refl _
  | cons x xs ih => exact List.Perm.trans (insDesc_perm x (sortDesc xs)) (ih.cons x)

/-- C1: for every candidate and present user context, the multi-signal
scorer computes 0.2 times rating over 5, plus 0.4 times the vector
similarity (0 when absent), plus 0.3 times topic affinity, plus 0.1 times
difficulty fit, plus 0.05 times style fit, plus 0.05 times the diversity
bonus, plus 0.02 exactly when the provenance tag is vector; with an
absent user context the score is rating over 5 plus half the vector
similarity. -/
theorem scorer_composite_formula (db : List (String × List String))
    (courses : List Course) (ctx : UserContext) :
    scoreCourses db courses (some ctx) = courses.map (fun c =>
      (c, 0.2 * (c.rating / 5)
          + 0.4 * (c.vector_similarity.getD 0)
          + 0.3 * calculateTopicScore c.topics
              (ctx.preferences.getD Preferences.empty).topics
              (extractPositiveTopicPatterns db ctx)
          + 0.1 * calculateDifficultyScore c.difficulty
              (ctx.preferences.getD Preferences.empty).difficulty
          + 0.05 * calculateLearningStyleScore c.format
              (ctx.preferences.getD Preferences.empty).learning_style
          + 0.05 * calculateDiversityScore c.topics
              (ctx.preferences.getD Preferences.empty).topics
          + (if c.source = some Source.vector then 0.02 else 0)))
    ∧ scoreCourses db courses none = courses.map (fun c =>
      (c, c.rating / 5 + 0.5 * (c.vector_similarity.getD 0))) := by
  constructor
  · simp only [scoreCourses]
    refine List.map_congr_left ?_
    intro c _
    by_cases h : c.source = some Source.vector <;>
      simp only [h, if_true, if_false, if_pos, if_neg, not_false_iff,
        Prod.mk.injEq, true_and] <;> ring
  · simp only [scoreCourses]
    refine List.map_congr_left ?_
    intro c _
    simp only [Prod.mk.injEq, true_and]
    ring

/-- C2: the scorer output, sorted as in
get_personalized_recommendations, is in non-increasing score order, the
entries at any fixed score keep their input order (stability), and the
sorted list is a permutation of the scored list. -/
theorem scorer_output_sorted_and_stable (db : List (String × List String))
    (courses : List Course) (userContext : Option UserContext) :
    List.Pairwise (fun a b : Course × ℚ => b.2 ≤ a.2)
      (sortDesc (scoreCourses db courses userContext))
    ∧ (∀ q : ℚ,
        (sortDesc (scoreCourses db courses userContext)).filter
            (fun a => decide (a.2 = q)) =
          (scoreCourses db courses userContext).filter (fun a => decide (a.2 = q)))
    ∧ List.Perm (sortDesc (scoreCourses db courses userContext))
        (scoreCourses db courses userContext) :=
  ⟨sortDesc_pairwise _, fun q => sortDesc_filter _ q, sortDesc_perm _⟩

/-- A key test on the dict succeeds exactly when the key is present. -/
theorem any_key_iff (d : List (String × Course)) (k : String) :
    (d.any (fun p => p.1 == k) = true) ↔ k ∈ dkeys d := by
  simp [List.any_eq_true, dkeys, List.mem_map]

/-- Dict assignment keeps the key sequence when the key exists and
appends it otherwise. -/
theorem dkeys_dinsert (d : List (String × Course)) (k : String) (v : Course) :
    dkeys (dinsert d k v) =
      if d.any (fun p => p.1 == k) then dkeys d else dkeys d ++ [k] := by
  simp only [dinsert]
  split
  · simp only [dkeys, List.map_map]
    refine List.map_congr_left ?_
    intro p _
    by_cases h : p.1 = k
    · simp [h]
    · simp [h]
  · simp [dkeys]

/-- Assignment makes the key present. -/
theorem mem_dkeys_dinsert (d : List (String × Course)) (k : String) (v : Course) :
    k ∈ dkeys (dinsert d k v) := by
  rw [dkeys_dinsert]
  split
  · rename_i h
    exact (any_key_iff d k).mp h
  · simp

/-- Assignment keeps every existing key present. -/
theorem dkeys_mono_dinsert (d : List (String × Course)) (k : String) (v : Course)
    (a : String) (ha : a ∈ dkeys d) : a ∈ dkeys (dinsert d k v) := by
  rw [dkeys_dinsert]
  split
  · exact ha
  · exact List.mem_append_left _ ha

/-- Assignment preserves key uniqueness. -/
theorem dkeys_nodup_dinsert (d : List (String × Course)) (k : String) (v : Course)
    (h : (dkeys d).Nodup) : (dkeys (dinsert d k v)).Nodup := by
  rw [dkeys_dinsert]
  split
  · exact h
  · rename_i hany
    rw [List.nodup_append]
    refine ⟨h, List.nodup_singleton k, ?_⟩
    intro a ha hk
    rw [List.mem_singleton] at hk
    subst hk
    exact hany ((any_key_iff d a).mpr ha)

/-- Assignment into a fresh key is an append. -/
theorem dinsert_of_not_mem (d : List (String × Course)) (k : String) (v : Course)
    (h : k ∉ dkeys d) : dinsert d k v = d ++ [(k, v)] := by
  simp only [dinsert]
  rw [if_neg]
  intro hany
  exact h ((any_key_iff d k).mp hany)

/-- Assignment preserves the invariant that each stored value carries its
key as its id, provided the new value does. -/
theorem dinsert_id_invariant (d : List (String × Course)) (k : String) (v : Course)
    (hv : v.id = k) (h : ∀ p ∈ d, p.2.id = p.1) :
    ∀ p ∈ dinsert d k v, p.2.id = p.1 := by
  intro p hp
  simp only [dinsert] at hp
  split at hp
  · rcases List.mem_map.mp hp with ⟨q, hq, rfl⟩
    by_cases hqk : q.1 == k
    · simp only [if_pos hqk]
      exact hv
    · simp only [if_neg hqk]
      exact h q hq
  · rcases List.mem_append.mp hp with hp | hp
    · exact h p hp
    · rw [List.mem_singleton] at hp
      subst hp
      exact hv

/-- Existing keys survive the vector fusion loop. -/
theorem dkeys_mono_fuseVectorFold (vec : List Course) (d0 : List (String × Course))
    (a : String) (ha : a ∈ dkeys d0) : a ∈ dkeys (fuseVectorFold vec d0) := by
  induction vec generalizing d0 with
  | nil => exact ha
  | cons c cs ih =>
    exact ih (dinsert d0 c.id (tagVector c)) (dkeys_mono_dinsert d0 c.id (tagVector c) a ha)

/-- The id of every vector candidate is a key after the vector fusion loop. -/
theorem id_mem_fuseVectorFold (vec : List Course) (d0 : List (String × Course)) :
    ∀ c ∈ vec, c.id ∈ dkeys (fuseVectorFold vec d0) := by
  induction vec generalizing d0 with
  | nil => intro c hc; cases hc
  | cons c cs ih =>
    intro c' hc'
    rcases List.mem_cons.mp hc' with hc' | hc'
    · subst hc'
      exact dkeys_mono_fuseVectorFold cs _ c'.id (mem_dkeys_dinsert d0 c'.id (tagVector c'))
    · exact ih _ c' hc'

/-- The vector fusion loop over candidates with fresh, pairwise-distinct
ids is a plain append of tagged entries. -/
theorem fuseVectorFold_eq (vec : List Course) (d0 : List (String × Course))
    (hnd : (vec.map Course.id).Nodup) (hdisj : ∀ c ∈ vec, c.id ∉ dkeys d0) :
    fuseVectorFold vec d0 = d0 ++ vec.map (fun c => (c.id, tagVector c)) := by
  induction vec generalizing d0 with
  | nil => simp [fuseVectorFold]
  | cons c cs ih =>
    rw [List.map_cons, List.nodup_cons] at hnd
    have hfresh : c.id ∉ dkeys d0 := hdisj c (List.mem_cons_self c cs)
    have hstep : fuseVectorFold (c :: cs) d0 =
        fuseVectorFold cs (dinsert d0 c.id (tagVector c)) := rfl
    rw [hstep, dinsert_of_not_mem d0 c.id (tagVector c) hfresh]
    rw [ih (d0 ++ [(c.id, tagVector c)]) hnd.2 ?_]
    · simp
    · intro c' hc'
      simp only [dkeys, List.map_append, List.mem_append, List.map_cons,
        List.map_nil, List.mem_singleton]
      rintro (h | h)
      · exact hdisj c' (List.mem_cons_of_mem c hc') h
      · exact hnd.1 (h ▸ List.mem_map_of_mem Course.id hc')

/-- The vector fusion loop preserves key uniqueness. -/
theorem dkeys_nodup_fuseVectorFold (vec : List Course) (d0 : List (String × Course))
    (h : (dkeys d0).Nodup) : (dkeys (fuseVectorFold vec d0)).Nodup := by
  induction vec generalizing d0 with
  | nil => exact h
  | cons c cs ih => exact ih _ (dkeys_nodup_dinsert d0 c.id (tagVector c) h)

/-- The vector fusion loop preserves the key-is-id invariant. -/
theorem fuseVectorFold_id_invariant (vec : List Course) (d0 : List (String × Course))
    (h : ∀ p ∈ d0, p.2.id = p.1) : ∀ p ∈ fuseVectorFold vec d0, p.2.id = p.1 := by
  induction vec generalizing d0 with
  | nil => exact h
  | cons c cs ih =>
    exact ih _ (dinsert_id_invariant d0 c.id (tagVector c) rfl h)

/-- Existing keys survive the content fusion loop. -/
theorem dkeys_mono_fuseContentFold (con : List Course) (d0 : List (String × Course))
    (a : String) (ha : a ∈ dkeys d0) : a ∈ dkeys (fuseContentFold con d0) := by
  induction con generalizing d0 with
  | nil => exact ha
  | cons c cs ih =>
    simp only [fuseContentFold, List.foldl_cons]
    split
    · exact ih d0 ha
    · refine ih _ ?_
      simp only [dkeys, List.map_append, List.mem_append]
      exact Or.inl ha

/-- The content fusion loop is the identity when every content id is
already a key. -/
theorem fuseContentFold_skip (con : List Course) (d0 : List (String × Course))
    (h : ∀ c ∈ con, c.id ∈ dkeys d0) : fuseContentFold con d0 = d0 := by
  induction con with
  | nil => rfl
  | cons c cs ih =>
    simp only [fuseContentFold, List.foldl_cons]
    rw [if_pos ((any_key_iff d0 c.id).mpr (h c (List.mem_cons_self c cs)))]
    exact ih fun c' hc' => h c' (List.mem_cons_of_mem c hc')

/-- The content fusion loop over candidates with pairwise-distinct ids
appends exactly the content candidates whose id is not yet a key. -/
theorem fuseContentFold_eq (con : List Course) (d0 : List (String × Course))
    (hnd : (con.map Course.id).Nodup) :
    fuseContentFold con d0 = d0 ++
      (con.filter (fun c => !(decide (c.id ∈ dkeys d0)))).map
        (fun c => (c.id, tagContent c)) := by
  induction con generalizing d0 with
  | nil => simp [fuseContentFold]
  | cons c cs ih =>
    rw [List.map_cons, List.nodup_cons] at hnd
    simp only [fuseContentFold, List.foldl_cons] at *
    by_cases hmem : c.id ∈ dkeys d0
    · rw [if_pos ((any_key_iff d0 c.id).mpr hmem), List.filter_cons,
        if_neg (by simp [hmem]), ih d0 hnd.2]
    · rw [if_neg (fun hany => hmem ((any_key_iff d0 c.id).mp hany)),
        List.filter_cons, if_pos (by simp [hmem]),
        ih (d0 ++ [(c.id, tagContent c)]) hnd.2]
      have hfilter : cs.filter
            (fun c' => !(decide (c'.id ∈ dkeys (d0 ++ [(c.id, tagContent c)])))) =
          cs.filter (fun c' => !(decide (c'.id ∈ dkeys d0))) := by
        refine List.filter_congr ?_
        intro c' hc'
        have hne : c'.id ≠ c.id := by
          intro he
          exact hnd.1 (he ▸ List.mem_map_of_mem Course.id hc')
        simp [dkeys, hne]
      rw [hfilter]
      simp

/-- The content fusion loop preserves key uniqueness. -/
theorem dkeys_nodup_fuseContentFold (con : List Course) (d0 : List (String × Course))
    (h : (dkeys d0).Nodup) : (dkeys (fuseContentFold con d0)).Nodup := by
  induction con generalizing d0 with
  | nil => exact h
  | cons c cs ih =>
    simp only [fuseContentFold, List.foldl_cons]
    split
    · exact ih d0 h
    · rename_i hany
      refine ih _ ?_
      simp only [dkeys, List.map_append, List.map_cons, List.map_nil]
      rw [List.nodup_append]
      refine ⟨h, List.nodup_singleton _, ?_⟩
      intro x hx hk
      rw [List.mem_singleton] at hk
      exact hany ((any_key_iff d0 c.id).mpr (hk ▸ hx))

/-- The content fusion loop preserves the key-is-id invariant. -/
theorem fuseContentFold_id_invariant (con : List Course) (d0 : List (String × Course))
    (h : ∀ p ∈ d0, p.2.id = p.1) : ∀ p ∈ fuseContentFold con d0, p.2.id = p.1 := by
  induction con generalizing d0 with
  | nil => exact h
  | cons c cs ih =>
    simp only [fuseContentFold, List.foldl_cons]
    split
    · exact ih d0 h
    · refine ih _ ?_
      intro p hp
      rcases List.mem_append.mp hp with hp | hp
      · exact h p hp
      · rw [List.mem_singleton] at hp
        subst hp
        rfl

/-- The keys of the dict built from tagged vector candidates are their
ids. -/
theorem dkeys_pairs (A : List Course) :
    dkeys (A.map (fun c => (c.id, tagVector c))) = A.map Course.id := by
  simp only [dkeys, List.map_map]
  rfl

/-- The values of the dict built from tagged vector candidates are the
tagged candidates. -/
theorem snd_pairs (A : List Course) :
    (A.map (fun c => (c.id, tagVector c))).map Prod.snd = A.map tagVector := by
  simp only [List.map_map]
  rfl

/-- Fusing X with a content list whose ids are all already ids of X (X
itself having unique ids) returns X with every element retagged as
vector-sourced. -/
theorem combine_absorb (X A : List Course) (hnd : (X.map Course.id).Nodup)
    (hsub : ∀ a ∈ A, a.id ∈ X.map Course.id) :
    combineRecommendations X A = X.map tagVector := by
  unfold combineRecommendations
  rw [fuseVectorFold_eq X [] hnd (by simp [dkeys]), List.nil_append]
  rw [fuseContentFold_skip A _ (by rw [dkeys_pairs]; exact hsub)]
  exact snd_pairs X

/-- Characterisation of candidate fusion on inputs with unique ids: the
tagged vector list followed by the tagged content candidates whose ids
are not ids of vector candidates. -/
theorem combine_eq (vec con : List Course) (hv : (vec.map Course.id).Nodup)
    (hc : (con.map Course.id).Nodup) :
    combineRecommendations vec con =
      vec.map tagVector ++
        (con.filter (fun c => !(decide (c.id ∈ vec.map Course.id)))).map tagContent := by
  unfold combineRecommendations
  rw [fuseVectorFold_eq vec [] hv (by simp [dkeys]), List.nil_append]
  rw [fuseContentFold_eq con _ hc, dkeys_pairs, List.map_append, snd_pairs,
    List.map_map]
  rfl

/-- The ids of a fusion result are the keys of the underlying dict. -/
theorem combine_ids_eq (vec con : List Course) :
    (combineRecommendations vec con).map Course.id =
      dkeys (fuseContentFold con (fuseVectorFold vec [])) := by
  unfold combineRecommendations
  rw [List.map_map]
  refine List.map_congr_left ?_
  intro p hp
  exact fuseContentFold_id_invariant con _
    (fuseVectorFold_id_invariant vec [] (by intro q hq; cases hq)) p hp

/-- A fusion result never repeats an id, for arbitrary inputs. -/
theorem combine_ids_nodup (vec con : List Course) :
    ((combineRecommendations vec con).map Course.id).Nodup := by
  rw [combine_ids_eq]
  exact dkeys_nodup_fuseContentFold con _
    (dkeys_nodup_fuseVectorFold vec [] (by simp [dkeys]))

/-- The id of every vector candidate is an id of the fusion result. -/
theorem mem_ids_combine (vec con : List Course) :
    ∀ c ∈ vec, c.id ∈ (combineRecommendations vec con).map Course.id := by
  intro c hcv
  rw [combine_ids_eq]
  exact dkeys_mono_fuseContentFold con _ c.id (id_mem_fuseVectorFold vec [] c hcv)

/-- C3: on inputs whose ids are unique (the data-model invariant for a
ranking run), fusion keeps every vector candidate with its similarity
value and the vector provenance tag, keeps a content candidate exactly
when its id is absent from the vector list, never repeats an id, and on
an id present in both inputs the output record is the vector-sourced
one. -/
theorem fusion_dedup_spec (vec con : List Course)
    (hv : (vec.map Course.id).Nodup) (hc : (con.map Course.id).Nodup) :
    (∀ c ∈ vec, tagVector c ∈ combineRecommendations vec con)
    ∧ (∀ c ∈ con,
        (tagContent c ∈ combineRecommendations vec con ↔ c.id ∉ vec.map Course.id))
    ∧ ((combineRecommendations vec con).map Course.id).Nodup
    ∧ (∀ c ∈ vec, ∀ c' ∈ con, c'.id = c.id →
        tagContent c' ∉ combineRecommendations vec con) := by
  have hchar := combine_eq vec con hv hc
  have hiff : ∀ c ∈ con,
      (tagContent c ∈ combineRecommendations vec con ↔ c.id ∉ vec.map Course.id) := by
    intro c hcmem
    constructor
    · intro hmem
      rw [hchar] at hmem
      rcases List.mem_append.mp hmem with hmem | hmem
      · rcases List.mem_map.mp hmem with ⟨c', _, he⟩
        have hsrc : (tagVector c').source = (tagContent c).source :=
          congrArg Course.source he
        simp [tagVector, tagContent] at hsrc
      · rcases List.mem_map.mp hmem with ⟨c', hc', he⟩
        have hid := congrArg Course.id he
        simp only [tagContent] at hid
        have hpred := (List.mem_filter.mp hc').2
        simp at hpred
        intro hmemids
        rcases List.mem_map.mp hmemids with ⟨x, hx, hxe⟩
        exact hpred x hx (hxe.trans hid.symm)
    · intro hnotin
      rw [hchar]
      refine List.mem_append_right _ (List.mem_map_of_mem tagContent ?_)
      exact List.mem_filter.mpr ⟨hcmem, by simp [hnotin]⟩
  refine ⟨?_, hiff, combine_ids_nodup vec con, ?_⟩
  · intro c hcmem
    rw [hchar]
    exact List.mem_append_left _ (List.mem_map_of_mem tagVector hcmem)
  · intro c hcv c' hcc hid hmem
    have hno := (hiff c' hcc).mp hmem
    exact hno (hid ▸ List.mem_map_of_mem Course.id hcv)

/-- Witness for fusion_dedup_spec at a concrete two-course input. -/
theorem fusion_dedup_spec_witness :
    tagVector sampleTopCourse ∈ combineRecommendations [sampleTopCourse] [sampleCourse]
    ∧ (tagContent sampleCourse ∈ combineRecommendations [sampleTopCourse] [sampleCourse]
        ↔ sampleCourse.id ∉ [sampleTopCourse].map Course.id) := by
  have h := fusion_dedup_spec [sampleTopCourse] [sampleCourse] (by decide) (by decide)
  exact ⟨h.1 sampleTopCourse (by simp), h.2.1 sampleCourse (by simp)⟩

/-- C9 counterexample: a one-element list with a unique id and no
provenance tag is not returned unchanged when fused with itself, because
fusion retags every surviving vector-side record. -/
theorem fusion_idempotent_counterexample :
    ((List.map Course.id [sampleCourse]).Nodup
      ∧ combineRecommendations [sampleCourse] [sampleCourse] ≠ [sampleCourse]) := by
  decide

/-- C9 as amended: fusion of a unique-id list with itself returns the
list with every element retagged as vector-sourced (hence the list itself
whenever its elements already carry the vector tag), re-fusing a fusion
result with its first input only retags the fusion result, and fusion
results never repeat an id. -/
theorem fusion_idempotent_up_to_provenance :
    (∀ A : List Course, (A.map Course.id).Nodup →
        combineRecommendations A A = A.map tagVector)
    ∧ (∀ A B : List Course,
        combineRecommendations (combineRecommendations A B) A =
          (combineRecommendations A B).map tagVector)
    ∧ (∀ A : List Course, (∀ c ∈ A, c.source = some Source.vector) →
        A.map tagVector = A) := by
  refine ⟨?_, ?_, ?_⟩
  · intro A hnd
    exact combine_absorb A A hnd (fun a ha => List.mem_map_of_mem Course.id ha)
  · intro A B
    exact combine_absorb (combineRecommendations A B) A (combine_ids_nodup A B)
      (mem_ids_combine A B)
  · intro A hall
    have h : ∀ c ∈ A, tagVector c = c := by
      intro c hcA
      have hs := hall c hcA
      cases c
      simp only [tagVector]
      simp_all
    rw [List.map_congr_left h]
    simp

/-- Witness for fusion_idempotent_up_to_provenance at concrete inputs. -/
theorem fusion_idempotent_witness :
    combineRecommendations [sampleCourse] [sampleCourse] = [sampleCourse].map tagVector
    ∧ [sampleVectorCourse].map tagVector = [sampleVectorCourse] :=
  ⟨fusion_idempotent_up_to_provenance.1 [sampleCourse] (by decide),
   fusion_idempotent_up_to_provenance.2.2 [sampleVectorCourse] (by decide)⟩

/-- C5: the cache key is not injective.  Python str of the None object is
the string None, so for every process hash function the absent query and
the literal query string None produce the same key for the same user and
result count, although the claim requires the key of the absent query to
differ from the key of every real query string. -/
theorem cacheKey_none_collides (pyHash : String → Int) :
    cacheKey pyHash 7 none 5 = cacheKey pyHash 7 (some "None") 5 := rfl

/-- Updating an existing key in place makes its lookup return the new
entry. -/
theorem find?_replace {α : Type} (cache : List (String × CacheEntry α))
    (k : String) (e : CacheEntry α)
    (hany : cache.any (fun p => p.1 == k) = true) :
    (cache.map (fun p => if p.1 == k then (k, e) else p)).find?
      (fun p => p.1 == k) = some (k, e) := by
  induction cache with
  | nil => simp at hany
  | cons p ps ih =>
    rw [List.map_cons]
    by_cases hp : (p.1 == k) = true
    · rw [if_pos hp]
      simp only [List.find?]
      simp
    · have hpf : (p.1 == k) = false := by
        cases hval : p.1 == k
        · rfl
        · exact absurd hval hp
      rw [if_neg hp]
      simp only [List.any_cons, hpf, Bool.false_or] at hany
      simp only [List.find?, hpf]
      exact ih hany

/-- Appending a fresh key makes its lookup return the new entry. -/
theorem find?_append_fresh {α : Type} (cache : List (String × CacheEntry α))
    (k : String) (e : CacheEntry α)
    (hany : cache.any (fun p => p.1 == k) = false) :
    (cache ++ [(k, e)]).find? (fun p => p.1 == k) = some (k, e) := by
  induction cache with
  | nil =>
    rw [List.nil_append]
    simp only [List.find?]
    simp
  | cons p ps ih =>
    simp only [List.any_cons, Bool.or_eq_false_iff] at hany
    rw [List.cons_append]
    simp only [List.find?, hany.1]
    exact ih hany.2

/-- After a store, looking up the stored key returns the stored entry. -/
theorem lookupCache_store {α : Type} (cache : List (String × CacheEntry α))
    (k : String) (e : CacheEntry α) :
    lookupCache (storeCache cache k e) k = some e := by
  simp only [storeCache, lookupCache]
  split
  · rename_i hany
    rw [find?_replace cache k e hany]
    rfl
  · rename_i hany
    have hfa : cache.any (fun p => p.1 == k) = false := by
      cases hval : cache.any (fun p => p.1 == k)
      · rfl
      · exact absurd hval hany
    rw [find?_append_fresh cache k e hfa]
    rfl

/-- C6: with force refresh off, a stored entry younger than the TTL is
returned as-is without running the compute path and without touching the
cache; a missing key, an entry at least TTL old, or force refresh on all
run the compute path, return the computed value and store it under the
key with the current timestamp. -/
theorem cache_policy_spec {α : Type} (cache : List (String × CacheEntry α))
    (now ttl : Nat) (key : String) (computeVal : α) :
    (∀ e, lookupCache cache key = some e → now - e.timestamp < ttl →
        cacheGetOrCompute cache now ttl key false computeVal =
          { value := e.data, cache := cache, computed := false })
    ∧ (lookupCache cache key = none →
        (cacheGetOrCompute cache now ttl key false computeVal).computed = true
        ∧ (cacheGetOrCompute cache now ttl key false computeVal).value = computeVal
        ∧ lookupCache (cacheGetOrCompute cache now ttl key false computeVal).cache key =
            some ⟨computeVal, now⟩)
    ∧ (∀ e, lookupCache cache key = some e → ttl ≤ now - e.timestamp →
        (cacheGetOrCompute cache now ttl key false computeVal).computed = true
        ∧ (cacheGetOrCompute cache now ttl key false computeVal).value = computeVal
        ∧ lookupCache (cacheGetOrCompute cache now ttl key false computeVal).cache key =
            some ⟨computeVal, now⟩)
    ∧ ((cacheGetOrCompute cache now ttl key true computeVal).computed = true
        ∧ (cacheGetOrCompute cache now ttl key true computeVal).value = computeVal
        ∧ lookupCache (cacheGetOrCompute cache now ttl key true computeVal).cache key =
            some ⟨computeVal, now⟩) := by
  refine ⟨?_, ?_, ?_, ?_⟩
  · intro e he hyoung
    simp [cacheGetOrCompute, he, hyoung]
  · intro he
    simp [cacheGetOrCompute, he, lookupCache_store]
  · intro e he hold
    simp [cacheGetOrCompute, he, Nat.not_lt.mpr hold, lookupCache_store]
  · simp [cacheGetOrCompute, lookupCache_store]

/-- Witness for cache_policy_spec: a concrete fresh hit is returned
without computing, and a forced refresh recomputes despite the fresh
entry. -/
theorem cache_policy_spec_witness :
    cacheGetOrCompute [("k", ⟨42, 10⟩)] 100 300 "k" false (7 : ℕ) =
      { value := 42, cache := [("k", ⟨42, 10⟩)], computed := false }
    ∧ (cacheGetOrCompute [("k", ⟨42, 10⟩)] 100 300 "k" true (7 : ℕ)).computed = true :=
  ⟨(cache_policy_spec [("k", ⟨42, 10⟩)] 100 300 "k" 7).1 ⟨42, 10⟩ rfl (by decide),
   (cache_policy_spec [("k", ⟨42, 10⟩)] 100 300 "k" 7).2.2.2.1⟩

/-- C4 counterexample: an exception inside the vector retrieval stage is
caught there and degrades that source to an empty candidate list, so the
engine serves the scored content-side candidates, not the fallback
top-rated list of the claim. -/
theorem engine_fallback_counterexample :
    runEngine
        { vectorResult := Except.error (), contentResult := Except.ok [sampleCourse],
          scoreRaises := false, postRaises := false,
          db := some [sampleTopCourse, sampleCourse] } [] none 10
      ≠ fallbackRecommendations (some [sampleTopCourse, sampleCourse]) 10 := by
  decide

/-- C4 as amended: when an exception propagates to the top-level handler
of get_personalized_recommendations (possible after retrieval, e.g. in
fusion, response construction or cache bookkeeping; retrieval and scoring
exceptions are caught inside their stages), the engine returns exactly
the list of the fallback supplier, which holds at most the requested number of
candidates, is ordered by non-increasing rating, carries similarity score
rating over 5 on every entry, draws every entry from the catalog, and is
empty when the catalog store is unreachable. -/
theorem engine_fallback_on_posterror (r : EngineRun)
    (topicsDb : List (String × List String)) (userContext : Option UserContext)
    (maxResults : Nat) (h : r.postRaises = true) :
    runEngine r topicsDb userContext maxResults =
      fallbackRecommendations r.db maxResults
    ∧ (fallbackRecommendations r.db maxResults).length ≤ maxResults
    ∧ List.Pairwise (fun a b : CourseResponse => b.rating ≤ a.rating)
        (fallbackRecommendations r.db maxResults)
    ∧ (∀ resp ∈ fallbackRecommendations r.db maxResults,
        resp.similarity_score = some (resp.rating / 5))
    ∧ (∀ resp ∈ fallbackRecommendations r.db maxResults,
        ∃ c ∈ r.db.getD [], resp = fallbackResponse c)
    ∧ (r.db = none → fallbackRecommendations r.db maxResults = []) := by
  refine ⟨by simp [runEngine, h], ?_, ?_, ?_, ?_, ?_⟩
  · match r.db with
    | none => simp [fallbackRecommendations]
    | some courses =>
      simp only [fallbackRecommendations, List.length_map]
      exact le_trans (List.length_take_le maxResults _) (le_refl _)
  · match r.db with
    | none => simp [fallbackRecommendations]
    | some courses =>
      simp only [fallbackRecommendations]
      have hmemrating : ∀ p ∈ sortDesc (courses.map (fun c => (c, c.rating))),
          p.2 = p.1.rating := by
        intro p hp
        have hp' := (sortDesc_perm (courses.map (fun c => (c, c.rating)))).mem_iff.mp hp
        rcases List.mem_map.mp hp' with ⟨c, _, rfl⟩
        rfl
      have hsorted := sortDesc_pairwise (courses.map (fun c => (c, c.rating)))
      have hsorted' : List.Pairwise
          (fun a b : Course × ℚ => b.1.rating ≤ a.1.rating)
          (sortDesc (courses.map (fun c => (c, c.rating)))) := by
        refine List.Pairwise.imp_of_mem ?_ hsorted
        intro a b ha hb hab
        rw [← hmemrating a ha, ← hmemrating b hb]
        exact hab
      have htake := hsorted'.sublist (List.take_sublist maxResults _)
      exact List.pairwise_map.mpr htake
  · match r.db with
    | none => simp [fallbackRecommendations]
    | some courses =>
      intro resp hresp
      simp only [fallbackRecommendations] at hresp
      rcases List.mem_map.mp hresp with ⟨p, _, rfl⟩
      rfl
  · match r.db with
    | none => simp [fallbackRecommendations]
    | some courses =>
      intro resp hresp
      simp only [fallbackRecommendations] at hresp
      rcases List.mem_map.mp hresp with ⟨p, hp, rfl⟩
      have hmem := (List.take_sublist maxResults _).mem hp
      have hmem' := (sortDesc_perm (courses.map (fun c => (c, c.rating)))).mem_iff.mp hmem
      rcases List.mem_map.mp hmem' with ⟨c, hc, rfl⟩
      exact ⟨c, hc, rfl⟩
  · intro hdb
    rw [hdb]
    rfl

/-- Witness for engine_fallback_on_posterror at a concrete run. -/
theorem engine_fallback_on_posterror_witness :
    runEngine
        { vectorResult := Except.ok [], contentResult := Except.ok [],
          scoreRaises := false, postRaises := true, db := some [sampleTopCourse] }
        [] none 5 =
      fallbackRecommendations (some [sampleTopCourse]) 5 :=
  (engine_fallback_on_posterror _ [] none 5 rfl).1

/-- A fold that conditionally adds a per-element amount equals the start
value plus the sum of the amounts. -/
theorem foldl_add_eq {α : Type} (l : List α) (F : ℚ → α → ℚ) (g : α → ℚ)
    (hF : ∀ s t, F s t = s + g t) (a : ℚ) :
    l.foldl F a = a + (l.map g).sum := by
  induction l generalizing a with
  | nil => simp
  | cons x xs ih =>
    rw [List.foldl_cons, ih, hF, List.map_cons, List.sum_cons]
    ring

/-- The two accumulation loops of _calculate_topic_score compute the sum
of the per-topic preferred-match and positive-history contributions. -/
theorem calculateTopicScore_eq (ct pt ht : List String) :
    calculateTopicScore ct pt ht =
      if ct.isEmpty then 0
      else min (((ct.map (topicMatchContrib pt)).sum +
          (ct.map (topicHistContrib ht)).sum) / max (ct.length : ℚ) 1) 1 := by
  simp only [calculateTopicScore]
  split
  · rfl
  · rw [foldl_add_eq ct _ (topicHistContrib ht) ?_ _,
      foldl_add_eq ct _ (topicMatchContrib pt) ?_ 0, zero_add]
    · intro s t
      by_cases h : strLower t ∈ pt.map strLower
      · simp [topicMatchContrib, h]
      · simp [topicMatchContrib, h]
    · intro s t
      by_cases h : 0 < (ht.map strLower).count (strLower t)
      · simp [topicHistContrib, h]
      · simp [topicHistContrib, h]

/-- The preferred-match contribution is nonnegative. -/
theorem topicMatchContrib_nonneg (pt : List String) (t : String) :
    0 ≤ topicMatchContrib pt t := by
  simp only [topicMatchContrib]
  split
  · norm_num
  · norm_num

/-- The positive-history contribution is nonnegative. -/
theorem topicHistContrib_nonneg (ht : List String) (t : String) :
    0 ≤ topicHistContrib ht t := by
  simp only [topicHistContrib]
  split
  · refine le_min ?_ (by norm_num)
    positivity
  · norm_num

/-- The positive-history contribution is capped at 0.8. -/
theorem topicHistContrib_le (ht : List String) (t : String) :
    topicHistContrib ht t ≤ 0.8 := by
  simp only [topicHistContrib]
  split
  · exact min_le_right _ _
  · norm_num

/-- Prepending one history topic never decreases any per-topic history
contribution. -/
theorem topicHistContrib_mono (ht : List String) (t0 t : String) :
    topicHistContrib ht t ≤ topicHistContrib (t0 :: ht) t := by
  simp only [topicHistContrib, List.map_cons, List.count_cons]
  by_cases hb : (strLower t0 == strLower t) = true
  · rw [if_pos hb]
    by_cases hc0 : 0 < (ht.map strLower).count (strLower t)
    · rw [if_pos hc0, if_pos (by omega)]
      refine min_le_min ?_ le_rfl
      have hle : (((ht.map strLower).count (strLower t) : ℕ) : ℚ) ≤
          (((ht.map strLower).count (strLower t) + 1 : ℕ) : ℚ) := by
        exact_mod_cast Nat.le_succ _
      gcongr
    · rw [if_neg hc0, if_pos (Nat.succ_pos _)]
      refine le_min ?_ (by norm_num)
      positivity
  · rw [if_neg hb, Nat.add_zero]

/-- C8: topic affinity is always within the unit interval, replacing a
candidate topic that matches no preferred topic by one that
case-insensitively matches a preferred topic never decreases it, and
adding an occurrence to the positive-history topic list never decreases
it. -/
theorem topic_affinity_bounds_and_monotone :
    (∀ ct pt ht : List String,
        0 ≤ calculateTopicScore ct pt ht ∧ calculateTopicScore ct pt ht ≤ 1)
    ∧ (∀ (pre post : List String) (t t' : String) (pt ht : List String),
        strLower t ∉ pt.map strLower → strLower t' ∈ pt.map strLower →
        calculateTopicScore (pre ++ t :: post) pt ht ≤
          calculateTopicScore (pre ++ t' :: post) pt ht)
    ∧ (∀ (ct pt ht : List String) (t0 : String),
        calculateTopicScore ct pt ht ≤ calculateTopicScore ct pt (t0 :: ht)) := by
  refine ⟨?_, ?_, ?_⟩
  · intro ct pt ht
    rw [calculateTopicScore_eq]
    split
    · norm_num
    · constructor
      · refine le_min ?_ (by norm_num)
        refine div_nonneg ?_ (le_max_of_le_right (by norm_num))
        refine add_nonneg (List.sum_nonneg ?_) (List.sum_nonneg ?_)
        · intro x hx
          rcases List.mem_map.mp hx with ⟨t, _, rfl⟩
          exact topicMatchContrib_nonneg pt t
        · intro x hx
          rcases List.mem_map.mp hx with ⟨t, _, rfl⟩
          exact topicHistContrib_nonneg ht t
      · exact min_le_right _ _
  · intro pre post t t' pt ht hnm hm
    rw [calculateTopicScore_eq, calculateTopicScore_eq]
    rw [if_neg (by simp), if_neg (by simp)]
    have hlen : (pre ++ t :: post).length = (pre ++ t' :: post).length := by simp
    rw [hlen]
    refine min_le_min ?_ le_rfl
    have hL : (0 : ℚ) < max ((pre ++ t' :: post).length : ℚ) 1 :=
      lt_of_lt_of_le zero_lt_one (le_max_right _ 1)
    rw [div_le_div_iff_of_pos_right hL]
    simp only [List.map_append, List.sum_append, List.map_cons, List.sum_cons]
    have h1 : topicMatchContrib pt t = 0 := by
      simp [topicMatchContrib, hnm]
    have h2 : topicMatchContrib pt t' = 1 := by
      simp [topicMatchContrib, hm]
    have h3 := topicHistContrib_le ht t
    have h4 := topicHistContrib_nonneg ht t'
    rw [h1, h2]
    have h08 : (0.8 : ℚ) ≤ 1 := by norm_num
    linarith
  · intro ct pt ht t0
    rw [calculateTopicScore_eq, calculateTopicScore_eq]
    by_cases hct : ct.isEmpty = true
    · rw [if_pos hct, if_pos hct]
    · rw [if_neg hct, if_neg hct]
      refine min_le_min ?_ le_rfl
      have hL : (0 : ℚ) < max (ct.length : ℚ) 1 :=
        lt_of_lt_of_le zero_lt_one (le_max_right _ 1)
      rw [div_le_div_iff_of_pos_right hL]
      refine add_le_add le_rfl (List.sum_le_sum ?_)
      intro t htmem
      exact topicHistContrib_mono ht t0 t

/-- Witness for topic_affinity_bounds_and_monotone: replacing the
unmatched topic art by the preferred topic python does not decrease the
affinity, nor does recording one more positive python feedback. -/
theorem topic_affinity_witness :
    calculateTopicScore ["art"] ["python"] [] ≤
      calculateTopicScore ["python"] ["python"] []
    ∧ calculateTopicScore ["python"] ["python"] [] ≤
        calculateTopicScore ["python"] ["python"] ["python"] :=
  ⟨topic_affinity_bounds_and_monotone.2.1 [] [] "art" "python" ["python"] []
      (by decide) (by decide),
   topic_affinity_bounds_and_monotone.2.2 ["python"] ["python"] [] "python"⟩

/-- Tokens produced by whitespace splitting are nonempty and contain no
whitespace, given the accumulator contains none. -/
theorem splitWsAux_shape : ∀ (cs acc : List Char),
    (∀ ch ∈ acc, pyIsSpace ch = false) →
    ∀ t ∈ splitWsAux cs acc, t ≠ [] ∧ ∀ ch ∈ t, pyIsSpace ch = false := by
  intro cs
  induction cs with
  | nil =>
    intro acc hacc t ht
    simp only [splitWsAux] at ht
    split at ht
    · cases ht
    · rename_i hne
      rw [List.mem_singleton] at ht
      subst ht
      refine ⟨?_, ?_⟩
      · simp only [ne_eq, List.reverse_eq_nil_iff]
        intro he
        rw [he] at hne
        exact hne rfl
      · intro ch hch
        exact hacc ch (List.mem_reverse.mp hch)
  | cons c cs ih =>
    intro acc hacc t ht
    simp only [splitWsAux] at ht
    split at ht
    · split at ht
      · exact ih [] (by intro ch hch; cases hch) t ht
      · rename_i hsp hne
        rcases List.mem_cons.mp ht with rfl | ht
        · refine ⟨?_, ?_⟩
          · simp only [ne_eq, List.reverse_eq_nil_iff]
            intro he
            rw [he] at hne
            exact hne rfl
          · intro ch hch
            exact hacc ch (List.mem_reverse.mp hch)
        · exact ih [] (by intro ch hch; cases hch) t ht
    · rename_i hsp
      refine ih (c :: acc) ?_ t ht
      intro ch hch
      rcases List.mem_cons.mp hch with rfl | hch
      · cases hval : pyIsSpace ch
        · rfl
        · exact absurd hval hsp
      · exact hacc ch hch

/-- Stripping only removes characters. -/
theorem mem_pyStrip (s : List Char) (ch : Char) (h : ch ∈ pyStrip s) : ch ∈ s := by
  simp only [pyStrip] at h
  rw [List.mem_reverse] at h
  have h1 := (List.dropWhile_sublist (l := (s.dropWhile pyIsSpace).reverse)
    (p := pyIsSpace)).mem h
  rw [List.mem_reverse] at h1
  exact (List.dropWhile_sublist (l := s) (p := pyIsSpace)).mem h1

/-- Keywords extracted from one captured span are nonempty and contain no
whitespace. -/
theorem keywordsOfMatch_shape (m : List Char) :
    ∀ t ∈ keywordsOfMatch m, t ≠ [] ∧ ∀ ch ∈ t, pyIsSpace ch = false := by
  intro t ht
  simp only [keywordsOfMatch] at ht
  rcases List.mem_filter.mp ht with ⟨hmem, hne⟩
  rcases List.mem_map.mp hmem with ⟨w, hw, rfl⟩
  have hwshape := splitWsAux_shape m [] (by intro ch hch; cases hch) w hw
  refine ⟨?_, ?_⟩
  · intro he
    rw [he] at hne
    cases hne
  · intro ch hch
    exact hwshape.2 ch (mem_pyStrip w ch hch)

/-- Every character of a greedy capture satisfies the class predicate. -/
theorem takeRun_chars (p : Char → Bool) : ∀ (s : List Char),
    ∀ ch ∈ (takeRun p s).1, p ch = true := by
  intro s
  induction s with
  | nil => intro ch hch; cases hch
  | cons c cs ih =>
    intro ch hch
    simp only [takeRun] at hch
    split at hch
    · rename_i hc
      rcases List.mem_cons.mp hch with rfl | hch
      · exact hc
      · exact ih ch hch
    · cases hch

/-- Every capture found by the pattern scanner is nonempty and made of
characters of the capture class. -/
theorem findAllAux_shape (lit : List Char) (p : Char → Bool) :
    ∀ (fuel : Nat) (s t : List Char), t ∈ findAllAux lit p fuel s →
      t ≠ [] ∧ ∀ ch ∈ t, p ch = true := by
  intro fuel
  induction fuel with
  | zero =>
    intro s t h
    cases h
  | succ n ih =>
    intro s t h
    match s with
    | [] => cases h
    | c :: cs =>
      simp only [findAllAux] at h
      split at h
      · split at h
        · exact ih cs t h
        · rename_i hcap
          rcases List.mem_cons.mp h with rfl | h
          · refine ⟨?_, takeRun_chars p _⟩
            intro he
            rw [List.isEmpty_iff] at hcap
            exact hcap he
          · exact ih _ t h
      · exact ih cs t h

/-- A word character is never whitespace. -/
theorem wordChar_not_space (ch : Char) (h : wordChar ch = true) :
    pyIsSpace ch = false := by
  cases hs : pyIsSpace ch
  · rfl
  · exfalso
    simp only [pyIsSpace, Bool.or_eq_true, beq_iff_eq] at hs
    rcases hs with ((((rfl | rfl) | rfl) | rfl) | rfl) | rfl <;>
      exact absurd h (by decide)

/-- C7: the negative-intent extractor yields the empty set on empty
input, extracts statistics from the running example, yields the empty set
on an input with no negative phrase, deduplicates its output, and every
extracted keyword is a nonempty whitespace-free token. -/
theorem negative_extractor_spec :
    extractNegativeKeywords [] = []
    ∧ "statistics".toList ∈
        extractNegativeKeywords ("I want data science but not statistics".toList)
    ∧ extractNegativeKeywords ("i want python courses".toList) = []
    ∧ (∀ q, (extractNegativeKeywords q).Nodup)
    ∧ (∀ q t, t ∈ extractNegativeKeywords q →
        t ≠ [] ∧ ∀ ch ∈ t, pyIsSpace ch = false) := by
  refine ⟨rfl, by decide, by decide, ?_, ?_⟩
  · intro q
    exact List.nodup_dedup _
  · intro q t h
    simp only [extractNegativeKeywords] at h
    rw [List.mem_dedup] at h
    rcases List.mem_append.mp h with h | h
    · rw [List.mem_flatten] at h
      rcases h with ⟨L, hL, htL⟩
      rcases List.mem_map.mp hL with ⟨lit, _, rfl⟩
      rw [List.mem_flatten] at htL
      rcases htL with ⟨K, hK, htK⟩
      rcases List.mem_map.mp hK with ⟨m, _, rfl⟩
      exact keywordsOfMatch_shape m t htK
    · have hshape := findAllAux_shape ("not ".toList) wordChar _ _ t h
      exact ⟨hshape.1, fun ch hch => wordChar_not_space ch (hshape.2 ch hch)⟩

/-- Witness for negative_extractor_spec: the extracted keyword statistics
is a nonempty whitespace-free token. -/
theorem negative_extractor_spec_witness :
    "statistics".toList ≠ [] ∧
      ∀ ch ∈ "statistics".toList, pyIsSpace ch = false :=
  negative_extractor_spec.2.2.2.2
    ("I want data science but not statistics".toList) "statistics".toList
    (by decide)

/-- C10: a course is excluded by negative filtering exactly when some
exclusion keyword whose stripped lowercase form has at least 3 characters
is an exact member of the lowercased topic tags of the course or of the word
tokens of its lowercased title; in particular keywords shorter than 3
characters never cause an exclusion. -/
theorem exclusion_requires_long_exact_match (title : String)
    (topics negativeKeywords : List String) :
    shouldExcludeCourse title topics negativeKeywords = true ↔
      ∃ k ∈ negativeKeywords,
        3 ≤ (pyStrip (lowerChars k.toList)).length ∧
        (pyStrip (lowerChars k.toList) ∈ topics.map (fun t => lowerChars t.toList) ∨
         pyStrip (lowerChars k.toList) ∈ wordTokens (lowerChars title.toList)) := by
  simp only [shouldExcludeCourse]
  split
  · rename_i hemp
    rw [List.isEmpty_iff] at hemp
    subst hemp
    simp
  · rw [List.any_eq_true]
    simp only [Bool.and_eq_true, Bool.or_eq_true, decide_eq_true_eq]

/-- Witness for exclusion_requires_long_exact_match at a concrete course
and keyword list. -/
theorem exclusion_requires_long_exact_match_witness :
    shouldExcludeCourse "Intro to Statistics" ["math"] ["st", "statistics"] = true ↔
      ∃ k ∈ ["st", "statistics"],
        3 ≤ (pyStrip (lowerChars k.toList)).length ∧
        (pyStrip (lowerChars k.toList) ∈
            (["math"] : List String).map (fun t => lowerChars t.toList) ∨
         pyStrip (lowerChars k.toList) ∈
            wordTokens (lowerChars "Intro to Statistics".toList)) :=
  exclusion_requires_long_exact_match "Intro to Statistics" ["math"] ["st", "statistics"]

end AIRec
